import Mathlib

/-!
Shallow embedding of `protoc-gen-twirp_ruby/main.go` (twirp-ruby code
generator). Strings are modelled as lists of code points (`List Nat`):
the Go code manipulates ASCII bytes (`camelCase`) and runes
(`snakeCase`), which coincide on the ASCII identifiers this tool
handles. Classifier functions mirror the Go source restricted to ASCII.
-/

/-- A Go string, as its list of code points. -/
abbrev Str := List Nat

/-- Convert a Lean string literal to its code-point list. -/
def str (s : String) : Str := s.data.map (fun c => c.toNat)

/-- `isASCIILower` from main.go: is `c` an ASCII lower-case letter? -/
def isASCIILower (c : Nat) : Bool := decide (97 ≤ c ∧ c ≤ 122)

/-- `isASCIIDigit` from main.go: is `c` an ASCII digit? -/
def isASCIIDigit (c : Nat) : Bool := decide (48 ≤ c ∧ c ≤ 57)

/-- `unicode.IsUpper`, restricted to ASCII as used on identifiers. -/
def isUpperGo (c : Nat) : Bool := decide (65 ≤ c ∧ c ≤ 90)

/-- `unicode.ToLower`, restricted to ASCII. -/
def toLowerGo (c : Nat) : Nat := if isUpperGo c then c + 32 else c

/-- The body of Go `snakeCase`'s loop: the `Bool` says whether the next
character is the first one (`i = 0` in the Go code); an underscore (95)
is inserted before every non-first upper-case letter and every character
is folded to lower case. -/
def snakeGo : Bool → Str → Str
  | _, [] => []
  | isFirst, c :: rest =>
      (if isUpperGo c && !isFirst then [95] else []) ++ toLowerGo c :: snakeGo false rest

/-- `snakeCase` from main.go. -/
def snakeCase (s : Str) : Str := snakeGo true s

/-- Is the head of the list an ASCII lower-case letter or digit?
(The `s[i+1]` look-ahead of Go `camelCase`.) -/
def headLowerDigit : Str → Bool
  | [] => false
  | c :: _ => isASCIILower c || isASCIIDigit c

/-- The main loop of Go `camelCase` (from `i := 0` or `i := 1` on).
The `Bool` is `true` exactly when the current character is examined by
the outer `for` loop of the Go code, and `false` when it may still be
consumed by the inner "accept lower case sequence" loop. An underscore
(95) followed by a lower-case letter or digit is skipped; a lower-case
letter at a word start is capitalised (`c ^= ' '`, i.e. `c - 32`). -/
def camelAux : Bool → Str → Str
  | _, [] => []
  | atStart, c :: rest =>
      if !atStart && (isASCIILower c || isASCIIDigit c) then
        c :: camelAux false rest
      else if c == 95 && headLowerDigit rest then
        camelAux true rest
      else
        (if isASCIILower c then c - 32 else c) :: camelAux false rest

/-- `camelCase` from main.go: empty stays empty; a leading underscore is
replaced by the placeholder letter `X` (88). -/
def camelCase (s : Str) : Str :=
  match s with
  | [] => []
  | c :: rest => if c == 95 then 88 :: camelAux true rest else camelAux true (c :: rest)

/-- `splitRubyConstants` from main.go: split a dotted protobuf package
name (dot = 46) into camel-cased Ruby constant names; empty input gives
no modules. -/
def splitRubyConstants (protoPckgName : Str) : List Str :=
  if protoPckgName = [] then [] else (protoPckgName.splitOn 46).map camelCase

/-- `strings.Split(s, "::")` as used on the `ruby_package` option
(colon = 58); leftmost-first, non-overlapping. -/
def splitOnColons : Str → List Str
  | [] => [[]]
  | 58 :: 58 :: rest => [] :: splitOnColons rest
  | c :: rest =>
      match splitOnColons rest with
      | [] => [[c]]
      | w :: ws => (c :: w) :: ws

/-- `filepath.Ext` (restricted to slash-separated paths): the suffix of
the last path element starting at its final dot, or empty. -/
def filepathExt (p : Str) : Str :=
  let lastSegRev := p.reverse.takeWhile (fun c => !(c == 47))
  if lastSegRev.contains 46 then (lastSegRev.takeWhile (fun c => !(c == 46)) ++ [46]).reverse
  else []

/-- `strings.TrimSuffix`. -/
def trimSuffix (p suf : Str) : Str :=
  if suf.isSuffixOf p then p.take (p.length - suf.length) else p

/-- `noExtension` from main.go. -/
def noExtension (p : Str) : Str := trimSuffix p (filepathExt p)

/-- `onlyBase` from main.go, i.e. `filepath.Base` on slash-separated
paths: empty path gives ".", trailing slashes are dropped, the last
element is returned, an all-slash path gives "/". -/
def onlyBase (p : Str) : Str :=
  if p = [] then [46]
  else
    let q := (p.reverse.dropWhile (fun c => c == 47)).reverse
    if q = [] then [47]
    else (q.reverse.takeWhile (fun c => !(c == 47))).reverse

/-- `descriptor.MethodDescriptorProto`: the fields main.go reads. -/
structure MethodDesc where
  name : Str
  inputType : Str
  outputType : Str
deriving DecidableEq

/-- `descriptor.ServiceDescriptorProto`: the fields main.go reads. -/
structure ServiceDesc where
  name : Str
  method : List MethodDesc
deriving DecidableEq

/-- `descriptor.FileDescriptorProto`: the fields main.go reads
(`rubyPackage = none` models `Options == nil || RubyPackage == nil`). -/
structure FileDesc where
  name : Str
  package : Str
  rubyPackage : Option Str
  service : List ServiceDesc
deriving DecidableEq

/-- Pair each file of the input list with its position. Go identifies a
`*FileDescriptorProto` by its pointer; distinct entries of
`genReq.ProtoFile` are distinct pointers, so the index is a faithful
stable identity key. -/
def enumFrom : Nat → List FileDesc → List (Nat × FileDesc)
  | _, [] => []
  | i, f :: fs => (i, f) :: enumFrom (i + 1) fs

/-- `fileDescSliceContains` from main.go: pointer identity is index
identity. -/
def fileDescSliceContains (slice : List (Nat × FileDesc)) (f : Nat × FileDesc) : Bool :=
  slice.any (fun sf => f.1 == sf.1)

/-- `findProtoFilesToGenerate` from main.go, the part building
`g.genFiles`: for each explicitly requested name, in order, every input
file with that name is appended. -/
def findProtoFilesToGenerate (protoFile : List FileDesc) (fileToGenerate : List Str) :
    List (Nat × FileDesc) :=
  fileToGenerate.foldl
    (fun acc nm => acc ++ (enumFrom 0 protoFile).filter (fun f => f.2.name == nm)) []

/-- `Modelled from the spec:` the `typemap` package is not part of this
source tree; per spec section 4.2 a message definition carries its own
simple name (`def.Descriptor.GetName()`), the names of its enclosing
ancestors outermost first (`def.Lineage()`, the chain of proper
ancestors, the leaf name being appended separately by `toRubyType`),
and its owning file (`def.File`, identified by index). -/
structure MessageDef where
  name : Str
  lineageNames : List Str
  file : Nat × FileDesc
deriving DecidableEq

/-- The state main.go's `generator` reaches before emission: the input
request plus the registry. `reg` abstracts `typemap.Registry`'s
`MessageDefinition` lookup (its construction lives outside this tree);
`none` models a missing definition. -/
structure GenCtx where
  version : Str
  protoFile : List FileDesc
  fileToGenerate : List Str
  reg : Str → Option MessageDef

/-- The `genFiles` field computed by `findProtoFilesToGenerate`. -/
def genFiles (ctx : GenCtx) : List (Nat × FileDesc) :=
  findProtoFilesToGenerate ctx.protoFile ctx.fileToGenerate

/-- The `fileToGoPackageName` map built by `findProtoFilesToGenerate`:
files in `genFiles` map to the empty string, the rest to their declared
package; a file that is no key of the map reads as the zero value. -/
def fileToGoPackageName (ctx : GenCtx) (p : Nat × FileDesc) : Str :=
  if p ∈ enumFrom 0 ctx.protoFile then
    (if fileDescSliceContains (genFiles ctx) p then [] else p.2.package)
  else []

/-- The camel-cased nested-type chain built by `toRubyType`'s loop:
every lineage name followed by "::", then the leaf name. -/
def typeChain (d : MessageDef) : Str :=
  ((d.lineageNames.map (fun par => camelCase par ++ str ("::"))).flatten) ++ camelCase d.name

/-- `toRubyType` from main.go. A `nil` registry answer makes the Go
code panic, which is modelled as `none`. -/
def toRubyType (ctx : GenCtx) (protoType : Str) : Option Str :=
  match ctx.reg protoType with
  | none => none
  | some d =>
      let pkg := fileToGoPackageName ctx d.file
      let pfx := if pkg ≠ [] then List.intercalate (str ("::")) (splitRubyConstants pkg) ++ str ("::") else []
      some (pfx ++ typeChain d)

/-- `indentation.String()` from main.go: `strings.Repeat("  ", i)`. -/
def indentStr (i : Nat) : Str := List.replicate (2 * i) 32

/-- Map a fallible function over a list, failing as soon as one element
fails (the Go code panics at the first failed lookup; nothing after it
is produced). -/
def mapOpt (f : α → Option β) : List α → Option (List β)
  | [] => some []
  | x :: xs =>
      match f x, mapOpt f xs with
      | some y, some ys => some (y :: ys)
      | _, _ => none

/-- The module-opening loop of `generateRubyCode`: one `module` line per
segment, incrementing the indent; returns the lines and the new indent. -/
def openModules : List Str → Nat → List Str × Nat
  | [], ind => ([], ind)
  | m :: ms, ind =>
      let rest := openModules ms (ind + 1)
      ((indentStr ind ++ str ("module ") ++ m) :: rest.1, rest.2)

/-- The module-closing loop of `generateRubyCode`: `n` times, decrement
the indent then emit an `end` line at the new depth. -/
def closeModules : Nat → Nat → List Str × Nat
  | 0, ind => ([], ind)
  | Nat.succ k, ind =>
      let rest := closeModules k (ind - 1)
      ((indentStr (ind - 1) ++ str ("end")) :: rest.1, rest.2)

/-- The `rpc` line of `generateRubyCode` for one method (apostrophe
is code 39). -/
def methodLine (ctx : GenCtx) (ind : Nat) (m : MethodDesc) : Option Str :=
  match toRubyType ctx m.inputType, toRubyType ctx m.outputType with
  | some rpcInput, some rpcOutput =>
      some (indentStr ind ++ str ("  rpc :") ++ m.name ++ str (", ") ++ rpcInput
        ++ str (", ") ++ rpcOutput ++ str (", :ruby_method => :") ++ snakeCase m.name)
  | _, _ => none

/-- The service-registration block plus client-binding block emitted by
`generateRubyCode` for one service (without the inter-service blank
line). -/
def serviceBlock (ctx : GenCtx) (pkgName : Str) (ind : Nat) (svc : ServiceDesc) :
    Option (List Str) :=
  match mapOpt (methodLine ctx ind) svc.method with
  | none => none
  | some mlines =>
      some ([indentStr ind ++ str ("class ") ++ camelCase svc.name ++ str ("Service < Twirp::Service")]
        ++ (if pkgName ≠ [] then [indentStr ind ++ str ("  package ") ++ [39] ++ pkgName ++ [39]] else [])
        ++ [indentStr ind ++ str ("  service ") ++ [39] ++ svc.name ++ [39]]
        ++ mlines
        ++ [indentStr ind ++ str ("end"), []]
        ++ [indentStr ind ++ str ("class ") ++ camelCase svc.name ++ str ("Client < Twirp::Client"),
            indentStr ind ++ str ("  client_for ") ++ camelCase svc.name ++ str ("Service"),
            indentStr ind ++ str ("end")])

/-- The per-service loop of `generateRubyCode`: consecutive
service/client pairs are separated by one blank line
(`if i < len(file.Service)-1` in the Go code, i.e. whenever further
services follow), with none after the last pair. -/
def serviceBlocks (ctx : GenCtx) (pkgName : Str) (ind : Nat) : List ServiceDesc → Option (List Str)
  | [] => some []
  | svc :: rest =>
      match serviceBlock ctx pkgName ind svc, serviceBlocks ctx pkgName ind rest with
      | some b, some r => some (b ++ (if rest = [] then [] else [[]]) ++ r)
      | _, _ => none

/-- The namespace segment list of `generateRubyCode`: the
`ruby_package` option split on "::" when present, otherwise the dotted
package split into Ruby constants. -/
def rubyModules (file : FileDesc) : List Str :=
  match file.rubyPackage with
  | some rp => splitOnColons rp
  | none => splitRubyConstants file.package

/-- `generateRubyCode` from main.go, as the list of emitted lines;
`none` models the panic of a failed type lookup. -/
def generateRubyCode (ctx : GenCtx) (file : FileDesc) (pbFileRelativePath : Str) :
    Option (List Str) :=
  let header : List Str :=
    [str ("# Code generated by protoc-gen-twirp_ruby ") ++ ctx.version ++ str (", DO NOT EDIT."),
     str ("require ") ++ [39] ++ str ("twirp") ++ [39],
     str ("require_relative ") ++ [39] ++ pbFileRelativePath ++ [39],
     []]
  let modules := rubyModules file
  let op := openModules modules 0
  match serviceBlocks ctx file.package op.2 file.service with
  | none => none
  | some body => some (header ++ op.1 ++ body ++ (closeModules modules.length op.2).1)

/-- `Generate` from main.go: one `(name, content)` response file per
entry of `genFiles`, in order; `none` models the panic aborting the
run with no response. -/
def Generate (ctx : GenCtx) : Option (List (Str × List Str)) :=
  mapOpt (fun p =>
      let twirpFileName := noExtension p.2.name ++ str ("_twirp.rb")
      let pbFileRelativePath := noExtension (onlyBase p.2.name) ++ str ("_pb.rb")
      (generateRubyCode ctx p.2 pbFileRelativePath).map (fun code => (twirpFileName, code)))
    (genFiles ctx)

/-- A concrete request: one file, package `hello.world`, one service
`Greeter` with one method `SayHello`. -/
def exFile : FileDesc :=
  ⟨str ("hello_world/service.proto"), str ("hello.world"), none,
    [⟨str ("Greeter"),
      [⟨str ("SayHello"), str (".hello.world.HelloRequest"), str (".hello.world.HelloResponse")⟩]⟩]⟩

/-- A generator state for `exFile`, with both message types registered
and owned by `exFile` itself. -/
def exCtx : GenCtx :=
  ⟨str ("v1.0"), [exFile], [str ("hello_world/service.proto")],
    fun t =>
      if t = str (".hello.world.HelloRequest") then some ⟨str ("HelloRequest"), [], (0, exFile)⟩
      else if t = str (".hello.world.HelloResponse") then some ⟨str ("HelloResponse"), [], (0, exFile)⟩
      else none⟩

/-- The text the generator emits for `exFile`. -/
def exLines : List Str :=
  [str ("# Code generated by protoc-gen-twirp_ruby v1.0, DO NOT EDIT."),
   str ("require ") ++ [39] ++ str ("twirp") ++ [39],
   str ("require_relative ") ++ [39] ++ str ("service_pb.rb") ++ [39],
   [],
   str ("module Hello"),
   str ("  module World"),
   str ("    class GreeterService < Twirp::Service"),
   str ("      package ") ++ [39] ++ str ("hello.world") ++ [39],
   str ("      service ") ++ [39] ++ str ("Greeter") ++ [39],
   str ("      rpc :SayHello, HelloRequest, HelloResponse, :ruby_method => :say_hello"),
   str ("    end"),
   [],
   str ("    class GreeterClient < Twirp::Client"),
   str ("      client_for GreeterService"),
   str ("    end"),
   str ("  end"),
   str ("end")]

/-- The full response for `exCtx`. -/
def exOut : List (Str × List Str) := [(str ("hello_world/service_twirp.rb"), exLines)]

/-- The character class of the round-trip claim: ASCII letters, digits
and the separator (95). -/
def srcChar (c : Nat) : Bool := isUpperGo c || isASCIILower c || isASCIIDigit c || c == 95

/-- Characters that can occur in snake-cased output: lower-case ASCII
letters, digits and the separator. -/
def okChar (c : Nat) : Bool := isASCIILower c || isASCIIDigit c || c == 95

/-- No separator is immediately followed by a digit. -/
def noSepDigit : Str → Bool
  | a :: b :: rest => (!(a == 95 && isASCIIDigit b)) && noSepDigit (b :: rest)
  | _ => true

/-- Does the string start with an ASCII lower-case letter? -/
def headLower : Str → Bool
  | [] => false
  | c :: _ => isASCIILower c

/-- Rendering of the spec's description of `to_snake_case`: the first
character is folded to lower case with no inserted separator; every
later character contributes an underscore when it is an upper-case
letter, then its lower-case folding; digits and separators pass through
unchanged (their folding is the identity). -/
def snakeSpec (s : Str) : Str :=
  match s with
  | [] => []
  | c :: rest =>
      toLowerGo c :: rest.flatMap (fun d => (if isUpperGo d then [95] else []) ++ [toLowerGo d])

def genFileC1 : FileDesc := ⟨str ("svc.proto"), [], none, []⟩

def depFileC1 : FileDesc := ⟨str ("vendor/dep.proto"), str ("foo.bar"), none, []⟩

def msgC1 : MessageDef := ⟨str ("my_message"), [], (1, depFileC1)⟩

def ctxC1 : GenCtx :=
  ⟨str ("v"), [genFileC1, depFileC1], [str ("svc.proto")],
    fun t => if t = str (".foo.bar.my_message") then some msgC1 else none⟩

def genFileC10 : FileDesc := ⟨str ("main.proto"), [], none, []⟩

def depFileC10 : FileDesc := ⟨str ("vendor/nopkg.proto"), [], none, []⟩

def msgC10 : MessageDef := ⟨str ("thing"), [str ("Outer_msg")], (1, depFileC10)⟩

def ctxC10 : GenCtx :=
  ⟨str ("v"), [genFileC10, depFileC10], [str ("main.proto")],
    fun t => if t = str (".thing") then some msgC10 else none⟩

def mC3 : MethodDesc := ⟨str ("Do"), str (".bad.Missing"), str (".bad.Missing")⟩

def svcC3 : ServiceDesc := ⟨str ("Oops"), [mC3]⟩

def badFileC3 : FileDesc := ⟨str ("bad.proto"), str ("bad"), none, [svcC3]⟩

def ctxC3 : GenCtx := ⟨str ("v"), [badFileC3], [str ("bad.proto")], fun _ => none⟩

/-- Does the line, after its indentation, open a Ruby module?
("module " is [109, 111, 100, 117, 108, 101, 32].) -/
def isModuleLine (l : Str) : Bool :=
  (str ("module ")).isPrefixOf (l.dropWhile (fun c => c == 32))

def fileC4 : FileDesc := ⟨str ("a.proto"), [], none, []⟩

def ctxC4 : GenCtx := ⟨[], [fileC4], [str ("a.proto")], fun _ => none⟩

example : camelCase (str ("my_field_name_2")) = str ("MyFieldName2") := by decide
example : camelCase (str ("_my_field")) = str ("XMyField"):= by decide
example : camelCase (str ("__a")) = str ("XA") := by decide
example : snakeCase (str ("CamelCase")) = str ("camel_case") := by decide
example : snakeCase (camelCase (snakeCase (str ("a_1")))) = str ("a1") := by decide
example : camelCase (str ("foo")) = str ("Foo") := by decide

example : splitRubyConstants (str ("my.cool.package")) = [str ("My"), str ("Cool"), str ("Package")] := by decide
example : splitOnColons (str ("Foo::Bar")) = [str ("Foo"), str ("Bar")] := by decide

example : noExtension (str ("hello_world/service.proto")) = str ("hello_world/service") := by decide
example : noExtension (onlyBase (str ("hello_world/service.proto"))) = str ("service") := by decide

example : Generate exCtx = some exOut := by decide

lemma snakeGo_false_flatMap (l : Str) :
    snakeGo false l = l.flatMap (fun d => (if isUpperGo d then [95] else []) ++ [toLowerGo d]) := by
  induction l with
  | nil => rfl
  | cons c rest ih => simp [snakeGo, ih]

lemma snakeGo_length (b : Bool) (l : Str) : l.length ≤ (snakeGo b l).length := by
  induction l generalizing b with
  | nil => simp [snakeGo]
  | cons c rest ih =>
      simp only [snakeGo, List.length_append, List.length_cons]
      have := ih false
      split <;> simp <;> omega

/-- C6: `to_snake_case` is the left-to-right scan that inserts a
separator before each non-first upper-case letter and folds characters
to lower case, leaving digits and separators unchanged, and its result
is at least as long as its input. -/
theorem snake_case_scan (s : Str) : snakeCase s = snakeSpec s ∧ s.length ≤ (snakeCase s).length := by
  constructor
  · cases s with
    | nil => rfl
    | cons c rest => simp [snakeCase, snakeGo, snakeSpec, snakeGo_false_flatMap]
  · exact snakeGo_length true s

/-- C7 as stated is false: for an input whose remainder after the
leading separator itself begins with a separator, the output is not the
placeholder letter followed by `to_camel_case` of the remainder
(`camelCase "__a" = "XA"` but `'X' :: camelCase "_a" = "XXA"`). -/
theorem camel_leading_sep_cex :
    (str ("__a")).head? = some 95 ∧
    camelCase (str ("__a")) ≠ 88 :: camelCase ((str ("__a")).tail) := by decide

/-- C7 (amended): `to_camel_case("")` is empty, and for an input
beginning with a separator whose remainder does not itself begin with a
separator, the output is the placeholder letter `X` followed by the
camel-cased remainder. -/
theorem camel_empty_and_leading_sep :
    camelCase [] = [] ∧
    ∀ rest : Str, rest.head? ≠ some 95 → camelCase (95 :: rest) = 88 :: camelCase rest := by
  refine ⟨rfl, ?_⟩
  intro rest h
  cases rest with
  | nil => rfl
  | cons c t =>
      have hc : ¬(c = 95) := by intro e; exact h (by simp [e])
      simp [camelCase, hc]

theorem camel_empty_and_leading_sep_witness :
    (str ("my_field")).head? ≠ some 95 ∧
    camelCase (95 :: str ("my_field")) = 88 :: camelCase (str ("my_field")) :=
  ⟨by decide, camel_empty_and_leading_sep.2 (str ("my_field")) (by decide)⟩

/-- C1: for a type owned by a file of generation role "generate", the
resolved identifier has no namespace prefix (only the camel-cased
nested-type chain); for a type owned by a dependency-only file with a
non-empty package, the resolved identifier is the camel-cased package
segments joined by "::", followed by "::", then the type chain. -/
theorem resolve_namespace_qualifier (ctx : GenCtx) (t : Str) (d : MessageDef)
    (hreg : ctx.reg t = some d) (hmem : d.file ∈ enumFrom 0 ctx.protoFile) :
    (fileDescSliceContains (genFiles ctx) d.file = true →
        toRubyType ctx t = some (typeChain d)) ∧
    (fileDescSliceContains (genFiles ctx) d.file = false → d.file.2.package ≠ [] →
        toRubyType ctx t = some ((List.intercalate (str ("::"))
            ((d.file.2.package.splitOn 46).map camelCase) ++ str ("::")) ++ typeChain d)) := by
  have hpkgdef : fileToGoPackageName ctx d.file =
      (if fileDescSliceContains (genFiles ctx) d.file then [] else d.file.2.package) := by
    unfold fileToGoPackageName
    rw [if_pos hmem]
  constructor
  · intro hgen
    unfold toRubyType
    rw [hreg]
    simp [hpkgdef, hgen]
  · intro hdep hpkg
    unfold toRubyType
    rw [hreg]
    simp only [hpkgdef, hdep, Bool.false_eq_true, if_false]
    rw [if_pos hpkg]
    simp [splitRubyConstants, hpkg]

theorem resolve_namespace_qualifier_witness :
    toRubyType ctxC1 (str (".foo.bar.my_message")) = some (str ("Foo::Bar::MyMessage")) := by
  have h := (resolve_namespace_qualifier ctxC1 (str (".foo.bar.my_message")) msgC1
      (by decide) (by decide)).2 (by decide) (by decide)
  exact h.trans (by decide)

/-- C10: for a type owned by a dependency-only file whose stored package
is empty, the resolved identifier carries no namespace prefix, exactly
as for a generate-role file: the prefix decision is keyed on the stored
package string being non-empty. -/
theorem resolve_dependency_empty_package (ctx : GenCtx) (t : Str) (d : MessageDef)
    (hreg : ctx.reg t = some d) (hmem : d.file ∈ enumFrom 0 ctx.protoFile)
    (hdep : fileDescSliceContains (genFiles ctx) d.file = false)
    (hpkg : d.file.2.package = []) :
    toRubyType ctx t = some (typeChain d) := by
  have hpkgdef : fileToGoPackageName ctx d.file =
      (if fileDescSliceContains (genFiles ctx) d.file then [] else d.file.2.package) := by
    unfold fileToGoPackageName
    rw [if_pos hmem]
  unfold toRubyType
  rw [hreg]
  simp [hpkgdef, hdep, hpkg]

theorem resolve_dependency_empty_package_witness :
    toRubyType ctxC10 (str (".thing")) = some (str ("OuterMsg::Thing")) := by
  have h := resolve_dependency_empty_package ctxC10 (str (".thing")) msgC10
      (by decide) (by decide) (by decide) (by decide)
  exact h.trans (by decide)

lemma mapOpt_eq_none_of_mem {f : α → Option β} {xs : List α} {x : α}
    (hx : x ∈ xs) (hfx : f x = none) : mapOpt f xs = none := by
  induction xs with
  | nil => cases hx
  | cons y ys ih =>
      rcases List.mem_cons.1 hx with rfl | hx'
      · simp [mapOpt, hfx]
      · cases hfy : f y <;> simp [mapOpt, hfy, ih hx']

lemma mapOpt_forall₂ {f : α → Option β} :
    ∀ {xs : List α} {ys : List β}, mapOpt f xs = some ys →
      List.Forall₂ (fun x y => f x = some y) xs ys := by
  intro xs
  induction xs with
  | nil =>
      intro ys h
      simp only [mapOpt, Option.some.injEq] at h
      subst h
      exact List.Forall₂.nil
  | cons x xs ih =>
      intro ys h
      cases hfx : f x with
      | none => simp [mapOpt, hfx] at h
      | some y =>
          cases hrest : mapOpt f xs with
          | none => simp [mapOpt, hfx, hrest] at h
          | some ys' =>
              simp only [mapOpt, hfx, hrest, Option.some.injEq] at h
              subst h
              exact List.Forall₂.cons hfx (ih hrest)

lemma mapOpt_mem_of_mem {f : α → Option β} {xs : List α} {ys : List β} {x : α} {y : β}
    (h : mapOpt f xs = some ys) (hx : x ∈ xs) (hfx : f x = some y) : y ∈ ys := by
  induction xs generalizing ys with
  | nil => cases hx
  | cons z zs ih =>
      cases hfz : f z with
      | none => simp [mapOpt, hfz] at h
      | some w =>
          cases hrest : mapOpt f zs with
          | none => simp [mapOpt, hfz, hrest] at h
          | some ws =>
              simp only [mapOpt, hfz, hrest, Option.some.injEq] at h
              subst h
              rcases List.mem_cons.1 hx with rfl | hx'
              · rw [hfx] at hfz
                cases hfz
                exact List.mem_cons_self _ _
              · exact List.mem_cons_of_mem _ (ih hrest hx')

lemma toRubyType_eq_none {ctx : GenCtx} {t : Str} (h : ctx.reg t = none) :
    toRubyType ctx t = none := by
  simp [toRubyType, h]

lemma methodLine_eq_none {ctx : GenCtx} {ind : Nat} {m : MethodDesc}
    (h : toRubyType ctx m.inputType = none ∨ toRubyType ctx m.outputType = none) :
    methodLine ctx ind m = none := by
  rcases h with h | h
  · cases h2 : toRubyType ctx m.outputType <;> simp [methodLine, h, h2]
  · cases h2 : toRubyType ctx m.inputType <;> simp [methodLine, h, h2]

lemma serviceBlocks_eq_none {ctx : GenCtx} {pkg : Str} {ind : Nat}
    {svcs : List ServiceDesc} {svc : ServiceDesc}
    (hsvc : svc ∈ svcs) (hb : serviceBlock ctx pkg ind svc = none) :
    serviceBlocks ctx pkg ind svcs = none := by
  induction svcs with
  | nil => cases hsvc
  | cons z zs ih =>
      rcases List.mem_cons.1 hsvc with rfl | hz
      · simp [serviceBlocks, hb]
      · cases hz1 : serviceBlock ctx pkg ind z <;>
          simp [serviceBlocks, hz1, ih hz]

lemma generateRubyCode_eq_none {ctx : GenCtx} {file : FileDesc} {pb : Str}
    (h : serviceBlocks ctx file.package (openModules (rubyModules file) 0).2 file.service = none) :
    generateRubyCode ctx file pb = none := by
  simp [generateRubyCode, h]

/-- C3: an unregistered type reference makes `resolve` fail (the Go
code panics, modelled as `none`), and when such a reference is the
input or output type of a method of a generated file's service, the
whole run produces no output envelope and no partial per-file output. -/
theorem lookup_failure_aborts (ctx : GenCtx) (t : Str) (p : Nat × FileDesc)
    (svc : ServiceDesc) (m : MethodDesc) :
    (ctx.reg t = none → toRubyType ctx t = none) ∧
    (p ∈ genFiles ctx → svc ∈ p.2.service → m ∈ svc.method →
      ctx.reg m.inputType = none ∨ ctx.reg m.outputType = none →
      Generate ctx = none) := by
  constructor
  · exact fun h => toRubyType_eq_none h
  · intro hp hs hm hfail
    have hml : methodLine ctx (openModules (rubyModules p.2) 0).2 m = none :=
      methodLine_eq_none (hfail.imp toRubyType_eq_none toRubyType_eq_none)
    have hsb : serviceBlock ctx p.2.package (openModules (rubyModules p.2) 0).2 svc = none := by
      simp [serviceBlock, mapOpt_eq_none_of_mem hm hml]
    have hgc : generateRubyCode ctx p.2 (noExtension (onlyBase p.2.name) ++ str ("_pb.rb")) = none :=
      generateRubyCode_eq_none (serviceBlocks_eq_none hs hsb)
    exact mapOpt_eq_none_of_mem hp (by simp [hgc])

theorem lookup_failure_aborts_witness : Generate ctxC3 = none :=
  (lookup_failure_aborts ctxC3 [] (0, badFileC3) svcC3 mC3).2
    (by decide) (by decide) (by decide) (Or.inl (by decide))

lemma require_line_mem {ctx : GenCtx} {file : FileDesc} {pb : Str} {lines : List Str}
    (h : generateRubyCode ctx file pb = some lines) :
    (str ("require_relative ") ++ [39] ++ pb ++ [39]) ∈ lines := by
  simp only [generateRubyCode] at h
  split at h
  · cases h
  · cases h
    simp

/-- C9: each response file is named by stripping the source file's
extension and appending "_twirp.rb", and its text requires a companion
artifact named by the source's base name with its extension removed and
"_pb.rb" appended. -/
theorem output_file_names (ctx : GenCtx) (out : List (Str × List Str))
    (h : Generate ctx = some out) :
    List.Forall₂ (fun (p : Nat × FileDesc) (e : Str × List Str) =>
        e.1 = noExtension p.2.name ++ str ("_twirp.rb") ∧
        (str ("require_relative ") ++ [39] ++ (noExtension (onlyBase p.2.name) ++ str ("_pb.rb")) ++ [39])
          ∈ e.2)
      (genFiles ctx) out := by
  have h2 := mapOpt_forall₂ h
  refine h2.imp ?_
  intro p e hpe
  have hpe' : (generateRubyCode ctx p.2 (noExtension (onlyBase p.2.name) ++ str ("_pb.rb"))).map
      (fun code => (noExtension p.2.name ++ str ("_twirp.rb"), code)) = some e := hpe
  cases hg : generateRubyCode ctx p.2 (noExtension (onlyBase p.2.name) ++ str ("_pb.rb")) with
  | none => rw [hg] at hpe'; cases hpe'
  | some code =>
      rw [hg] at hpe'
      simp only [Option.map_some', Option.some.injEq] at hpe'
      subst hpe'
      exact ⟨rfl, require_line_mem hg⟩

lemma openModules_snd (ms : List Str) : ∀ i : Nat, (openModules ms i).2 = i + ms.length := by
  induction ms with
  | nil => intro i; simp [openModules]
  | cons m ms ih => intro i; simp [openModules, ih]; omega

lemma openModules_fst_length (ms : List Str) : ∀ i : Nat, (openModules ms i).1.length = ms.length := by
  induction ms with
  | nil => intro i; simp [openModules]
  | cons m ms ih => intro i; simp [openModules, ih]

lemma closeModules_fst_length (n : Nat) : ∀ i : Nat, (closeModules n i).1.length = n := by
  induction n with
  | zero => intro i; simp [closeModules]
  | succ k ih => intro i; simp [closeModules, ih]

lemma closeModules_snd (n : Nat) : ∀ i : Nat, (closeModules n i).2 = i - n := by
  induction n with
  | zero => intro i; simp [closeModules]
  | succ k ih => intro i; simp [closeModules, ih]; omega

lemma mapOpt_mem_inv {f : α → Option β} :
    ∀ {xs : List α} {ys : List β} {y : β}, mapOpt f xs = some ys → y ∈ ys →
      ∃ x ∈ xs, f x = some y := by
  intro xs
  induction xs with
  | nil =>
      intro ys y h hy
      simp only [mapOpt, Option.some.injEq] at h
      subst h
      cases hy
  | cons x xs ih =>
      intro ys y h hy
      cases hfx : f x with
      | none => simp [mapOpt, hfx] at h
      | some w =>
          cases hrest : mapOpt f xs with
          | none => simp [mapOpt, hfx, hrest] at h
          | some ws =>
              simp only [mapOpt, hfx, hrest, Option.some.injEq] at h
              subst h
              rcases List.mem_cons.1 hy with rfl | hy'
              · exact ⟨x, List.mem_cons_self _ _, hfx⟩
              · obtain ⟨z, hz, hfz⟩ := ih hrest hy'
                exact ⟨z, List.mem_cons_of_mem _ hz, hfz⟩

lemma generateRubyCode_some_parts {ctx : GenCtx} {file : FileDesc} {pb : Str} {lines : List Str}
    (h : generateRubyCode ctx file pb = some lines) :
    ∃ body,
      serviceBlocks ctx file.package (openModules (rubyModules file) 0).2 file.service = some body ∧
      lines =
        [str ("# Code generated by protoc-gen-twirp_ruby ") ++ ctx.version ++ str (", DO NOT EDIT."),
         str ("require ") ++ [39] ++ str ("twirp") ++ [39],
         str ("require_relative ") ++ [39] ++ pb ++ [39],
         []]
        ++ (openModules (rubyModules file) 0).1 ++ body
        ++ (closeModules (rubyModules file).length (openModules (rubyModules file) 0).2).1 := by
  cases hsb : serviceBlocks ctx file.package (openModules (rubyModules file) 0).2 file.service with
  | none => simp [generateRubyCode, hsb] at h
  | some body =>
      simp only [generateRubyCode, hsb, Option.some.injEq] at h
      exact ⟨body, rfl, h.symm⟩

lemma serviceBlocks_sub {ctx : GenCtx} {pkg : Str} {ind : Nat} {svc : ServiceDesc} :
    ∀ {svcs : List ServiceDesc} {body : List Str},
      serviceBlocks ctx pkg ind svcs = some body → svc ∈ svcs →
      ∃ b, serviceBlock ctx pkg ind svc = some b ∧ ∀ l ∈ b, l ∈ body := by
  intro svcs
  induction svcs with
  | nil => intro body _ hs; cases hs
  | cons z zs ih =>
      intro body h hs
      cases hz : serviceBlock ctx pkg ind z with
      | none => simp [serviceBlocks, hz] at h
      | some b =>
          cases hr : serviceBlocks ctx pkg ind zs with
          | none => simp [serviceBlocks, hz, hr] at h
          | some r =>
              simp only [serviceBlocks, hz, hr, Option.some.injEq] at h
              subst h
              rcases List.mem_cons.1 hs with rfl | hs'
              · exact ⟨b, hz, fun l hl => List.mem_append.2 (Or.inl (List.mem_append.2 (Or.inl hl)))⟩
              · obtain ⟨b', hb', hsub⟩ := ih hr hs'
                exact ⟨b', hb', fun l hl => List.mem_append.2 (Or.inr (hsub l hl))⟩

lemma serviceBlock_parts {ctx : GenCtx} {pkg : Str} {ind : Nat} {svc : ServiceDesc}
    {b : List Str} (hb : serviceBlock ctx pkg ind svc = some b) :
    ∃ mlines, mapOpt (methodLine ctx ind) svc.method = some mlines ∧
      b = [indentStr ind ++ str ("class ") ++ camelCase svc.name ++ str ("Service < Twirp::Service")]
        ++ (if pkg ≠ [] then [indentStr ind ++ str ("  package ") ++ [39] ++ pkg ++ [39]] else [])
        ++ [indentStr ind ++ str ("  service ") ++ [39] ++ svc.name ++ [39]]
        ++ mlines
        ++ [indentStr ind ++ str ("end"), []]
        ++ [indentStr ind ++ str ("class ") ++ camelCase svc.name ++ str ("Client < Twirp::Client"),
            indentStr ind ++ str ("  client_for ") ++ camelCase svc.name ++ str ("Service"),
            indentStr ind ++ str ("end")] := by
  cases hmo : mapOpt (methodLine ctx ind) svc.method with
  | none => simp [serviceBlock, hmo] at hb
  | some mlines =>
      simp only [serviceBlock, hmo, Option.some.injEq] at hb
      exact ⟨mlines, rfl, hb.symm⟩

/-- C8: for every service of an emitted file and every method in
declaration order, the emitted text contains the RPC-registration line
carrying the unmodified method name, the resolved input type, the
resolved output type, and the snake-cased dispatch key. -/
theorem rpc_registration_entries (ctx : GenCtx) (file : FileDesc) (pb : Str) (lines : List Str)
    (svc : ServiceDesc) (m : MethodDesc) (tin tout : Str)
    (h : generateRubyCode ctx file pb = some lines)
    (hs : svc ∈ file.service) (hm : m ∈ svc.method)
    (hin : toRubyType ctx m.inputType = some tin)
    (hout : toRubyType ctx m.outputType = some tout) :
    (indentStr (rubyModules file).length ++ str ("  rpc :") ++ m.name ++ str (", ") ++ tin
      ++ str (", ") ++ tout ++ str (", :ruby_method => :") ++ snakeCase m.name) ∈ lines := by
  obtain ⟨body, hsb, rfl⟩ := generateRubyCode_some_parts h
  have hind : (openModules (rubyModules file) 0).2 = (rubyModules file).length := by
    rw [openModules_snd]
    omega
  rw [hind] at hsb
  obtain ⟨b, hb, hsub⟩ := serviceBlocks_sub hsb hs
  obtain ⟨mlines, hmo, rfl⟩ := serviceBlock_parts hb
  have hml : methodLine ctx (rubyModules file).length m =
      some (indentStr (rubyModules file).length ++ str ("  rpc :") ++ m.name ++ str (", ") ++ tin
        ++ str (", ") ++ tout ++ str (", :ruby_method => :") ++ snakeCase m.name) := by
    simp [methodLine, hin, hout]
  have hmem : (indentStr (rubyModules file).length ++ str ("  rpc :") ++ m.name ++ str (", ") ++ tin
      ++ str (", ") ++ tout ++ str (", :ruby_method => :") ++ snakeCase m.name) ∈ mlines :=
    mapOpt_mem_of_mem hmo hm hml
  have hinb := hsub _ (by simp only [List.mem_append]; tauto)
  simp only [List.mem_append]
  tauto

theorem rpc_registration_entries_witness :
    (indentStr (rubyModules exFile).length ++ str ("  rpc :") ++ str ("SayHello") ++ str (", ")
      ++ str ("HelloRequest") ++ str (", ") ++ str ("HelloResponse")
      ++ str (", :ruby_method => :") ++ snakeCase (str ("SayHello"))) ∈ exLines :=
  rpc_registration_entries exCtx exFile (str ("service_pb.rb")) exLines
    ⟨str ("Greeter"),
      [⟨str ("SayHello"), str (".hello.world.HelloRequest"), str (".hello.world.HelloResponse")⟩]⟩
    ⟨str ("SayHello"), str (".hello.world.HelloRequest"), str (".hello.world.HelloResponse")⟩
    (str ("HelloRequest")) (str ("HelloResponse"))
    (by decide) (by decide) (by decide) (by decide) (by decide)

lemma dropWhile32_replicate (n : Nat) (l : Str) :
    (List.replicate n 32 ++ l).dropWhile (fun c => c == 32) = l.dropWhile (fun c => c == 32) := by
  induction n with
  | zero => simp
  | succ k ih => simp [List.replicate_succ, List.dropWhile_cons, ih]

lemma isModuleLine_indent (k : Nat) (l : Str) : isModuleLine (indentStr k ++ l) = isModuleLine l := by
  simp [isModuleLine, indentStr, dropWhile32_replicate]

lemma isModuleLine_cons_ne {a : Nat} (l : Str) (h32 : a ≠ 32) (h109 : a ≠ 109) :
    isModuleLine (a :: l) = false := by
  simp only [isModuleLine, List.dropWhile_cons]
  rw [if_neg (by simp [h32])]
  rw [show str ("module ") = 109 :: str ("odule ") from by decide]
  have hne : (109 == a) = false := by simp [Ne.symm h109]
  simp [List.isPrefixOf, hne]

lemma isModuleLine_cons32 (l : Str) : isModuleLine (32 :: l) = isModuleLine l := by
  simp [isModuleLine, List.dropWhile_cons]

lemma isModuleLine_append_of_head {a : Nat} {s : Str} (l : Str)
    (hhead : s.head? = some a) (h32 : a ≠ 32) (h109 : a ≠ 109) :
    isModuleLine (s ++ l) = false := by
  cases s with
  | nil => cases hhead
  | cons b t =>
      injection hhead with hb
      subst hb
      exact isModuleLine_cons_ne _ h32 h109

lemma isModuleLine_module (k : Nat) (m : Str) :
    isModuleLine (indentStr k ++ (str ("module ") ++ m)) = true := by
  rw [isModuleLine_indent]
  unfold isModuleLine
  rw [show str ("module ") = 109 :: str ("odule ") from by decide]
  simp [List.dropWhile_cons, List.isPrefixOf_iff_prefix]

lemma openModules_countP (ms : List Str) :
    ∀ i : Nat, ((openModules ms i).1).countP isModuleLine = ms.length := by
  induction ms with
  | nil => intro i; simp [openModules]
  | cons m ms ih =>
      intro i
      simp [openModules, List.countP_cons, ih, isModuleLine_module]

lemma closeModules_countP (n : Nat) :
    ∀ i : Nat, ((closeModules n i).1).countP isModuleLine = 0 := by
  induction n with
  | zero => intro i; simp [closeModules]
  | succ k ih =>
      intro i
      have hend : isModuleLine (indentStr (i - 1) ++ str ("end")) = false := by
        rw [isModuleLine_indent]
        decide
      simp [closeModules, List.countP_cons, ih, hend]

lemma countP_module_single {l : Str} (h : isModuleLine l = false) :
    List.countP isModuleLine [l] = 0 := by
  simp [List.countP_cons, h]

lemma methodLine_no_module {ctx : GenCtx} {ind : Nat} {m : MethodDesc} {l : Str}
    (h : methodLine ctx ind m = some l) : isModuleLine l = false := by
  cases hin : toRubyType ctx m.inputType with
  | none => simp [methodLine, hin] at h
  | some tin =>
      cases hout : toRubyType ctx m.outputType with
      | none => simp [methodLine, hin, hout] at h
      | some tout =>
          simp only [methodLine, hin, hout, Option.some.injEq] at h
          subst h
          simp only [List.append_assoc, isModuleLine_indent]
          rw [show str ("  rpc :") = 32 :: 32 :: str ("rpc :") from by decide]
          simp only [List.cons_append, isModuleLine_cons32]
          exact isModuleLine_cons_ne _ (by decide) (by decide)

lemma serviceBlock_countP {ctx : GenCtx} {pkg : Str} {ind : Nat} {svc : ServiceDesc}
    {b : List Str} (hb : serviceBlock ctx pkg ind svc = some b) :
    b.countP isModuleLine = 0 := by
  obtain ⟨mlines, hmo, rfl⟩ := serviceBlock_parts hb
  have hclass : isModuleLine (indentStr ind ++ (str ("class ")
      ++ (camelCase svc.name ++ str ("Service < Twirp::Service")))) = false := by
    rw [isModuleLine_indent]
    exact isModuleLine_append_of_head _ (show (str ("class ")).head? = some 99 from by decide)
      (by decide) (by decide)
  have hclass2 : isModuleLine (indentStr ind ++ (str ("class ")
      ++ (camelCase svc.name ++ str ("Client < Twirp::Client")))) = false := by
    rw [isModuleLine_indent]
    exact isModuleLine_append_of_head _ (show (str ("class ")).head? = some 99 from by decide)
      (by decide) (by decide)
  have hcf : isModuleLine (indentStr ind ++ (str ("  client_for ")
      ++ (camelCase svc.name ++ str ("Service")))) = false := by
    rw [isModuleLine_indent]
    rw [show str ("  client_for ") = 32 :: 32 :: str ("client_for ") from by decide]
    simp only [List.cons_append, isModuleLine_cons32]
    exact isModuleLine_append_of_head _ (show (str ("client_for ")).head? = some 99 from by decide)
      (by decide) (by decide)
  have hend : isModuleLine (indentStr ind ++ str ("end")) = false := by
    rw [isModuleLine_indent]
    decide
  have hsvcline : isModuleLine (indentStr ind ++ (str ("  service ")
      ++ 39 :: (svc.name ++ [39]))) = false := by
    rw [isModuleLine_indent]
    rw [show str ("  service ") = 32 :: 32 :: str ("service ") from by decide]
    simp only [List.cons_append, isModuleLine_cons32]
    exact isModuleLine_append_of_head _ (show (str ("service ")).head? = some 115 from by decide)
      (by decide) (by decide)
  have hpkgline : isModuleLine (indentStr ind ++ (str ("  package ")
      ++ 39 :: (pkg ++ [39]))) = false := by
    rw [isModuleLine_indent]
    rw [show str ("  package ") = 32 :: 32 :: str ("package ") from by decide]
    simp only [List.cons_append, isModuleLine_cons32]
    exact isModuleLine_append_of_head _ (show (str ("package ")).head? = some 112 from by decide)
      (by decide) (by decide)
  have hml : mlines.countP isModuleLine = 0 := by
    refine List.countP_eq_zero.2 (fun l hl => ?_)
    obtain ⟨mth, _, hml⟩ := mapOpt_mem_inv hmo hl
    simp [methodLine_no_module hml]
  have hblank : isModuleLine ([] : Str) = false := by decide
  simp [List.countP_append, List.countP_cons, hclass, hclass2, hcf, hend, hsvcline,
    hpkgline, hml, hblank]

lemma serviceBlocks_countP {ctx : GenCtx} {pkg : Str} {ind : Nat} :
    ∀ {svcs : List ServiceDesc} {body : List Str},
      serviceBlocks ctx pkg ind svcs = some body → body.countP isModuleLine = 0 := by
  intro svcs
  induction svcs with
  | nil =>
      intro body h
      simp only [serviceBlocks, Option.some.injEq] at h
      subst h
      simp
  | cons z zs ih =>
      intro body h
      cases hz : serviceBlock ctx pkg ind z with
      | none => simp [serviceBlocks, hz] at h
      | some b =>
          cases hr : serviceBlocks ctx pkg ind zs with
          | none => simp [serviceBlocks, hz, hr] at h
          | some r =>
              simp only [serviceBlocks, hz, hr, Option.some.injEq] at h
              subst h
              have hsep : (List.countP isModuleLine (if zs = [] then [] else [[]])) = 0 := by
                split <;> simp [List.countP_cons, show isModuleLine ([] : Str) = false from by decide]
              simp [List.countP_append, serviceBlock_countP hz, hsep, ih hr]

/-- C5: for an emitted file with N namespace segments the text contains
exactly N open-namespace (`module`) lines, the close sequence contains
exactly N close lines, and the depth counter returns to its pre-open
value (0) after the close sequence. -/
theorem namespace_nesting_balanced (ctx : GenCtx) (file : FileDesc) (pb : Str) (lines : List Str)
    (h : generateRubyCode ctx file pb = some lines) :
    lines.countP isModuleLine = (rubyModules file).length ∧
    (openModules (rubyModules file) 0).1.length = (rubyModules file).length ∧
    (closeModules (rubyModules file).length (openModules (rubyModules file) 0).2).1.length
      = (rubyModules file).length ∧
    (closeModules (rubyModules file).length (openModules (rubyModules file) 0).2).2 = 0 := by
  obtain ⟨body, hsb, rfl⟩ := generateRubyCode_some_parts h
  refine ⟨?_, openModules_fst_length _ _, closeModules_fst_length _ _, ?_⟩
  · have h1 : isModuleLine (str ("# Code generated by protoc-gen-twirp_ruby ")
        ++ (ctx.version ++ str (", DO NOT EDIT."))) = false := by
      exact isModuleLine_append_of_head _
        (show (str ("# Code generated by protoc-gen-twirp_ruby ")).head? = some 35 from by decide)
        (by decide) (by decide)
    have h2 : isModuleLine (str ("require ") ++ 39 :: (str ("twirp") ++ [39])) = false := by
      decide
    have h3 : isModuleLine (str ("require_relative ") ++ 39 :: (pb ++ [39])) = false := by
      exact isModuleLine_append_of_head _
        (show (str ("require_relative ")).head? = some 114 from by decide)
        (by decide) (by decide)
    have hblank : isModuleLine ([] : Str) = false := by decide
    simp [List.countP_append, List.countP_cons, h1, h2, h3, hblank,
      serviceBlocks_countP hsb, openModules_countP, closeModules_countP]
  · rw [closeModules_snd, openModules_snd]
    omega

theorem namespace_nesting_balanced_witness :
    exLines.countP isModuleLine = (rubyModules exFile).length ∧
    (openModules (rubyModules exFile) 0).1.length = (rubyModules exFile).length ∧
    (closeModules (rubyModules exFile).length (openModules (rubyModules exFile) 0).2).1.length
      = (rubyModules exFile).length ∧
    (closeModules (rubyModules exFile).length (openModules (rubyModules exFile) 0).2).2 = 0 :=
  namespace_nesting_balanced exCtx exFile (str ("service_pb.rb")) exLines (by decide)

lemma foldl_append_flatMap (g : α → List β) :
    ∀ (l : List α) (init : List β),
      l.foldl (fun acc x => acc ++ g x) init = init ++ l.flatMap g := by
  intro l
  induction l with
  | nil => intro init; simp
  | cons x xs ih => intro init; simp [List.flatMap_cons, ih, List.append_assoc]

lemma findProtoFilesToGenerate_eq (protoFile : List FileDesc) (names : List Str) :
    findProtoFilesToGenerate protoFile names =
      names.flatMap (fun nm => (enumFrom 0 protoFile).filter (fun f => f.2.name == nm)) := by
  unfold findProtoFilesToGenerate
  rw [foldl_append_flatMap]
  simp

lemma enumFrom_fst_le {fs : List FileDesc} :
    ∀ {j : Nat} {x : Nat}, x ∈ (enumFrom j fs).map Prod.fst → j ≤ x := by
  induction fs with
  | nil => intro j x hx; simp [enumFrom] at hx
  | cons f fs ih =>
      intro j x hx
      simp only [enumFrom, List.map_cons, List.mem_cons] at hx
      rcases hx with rfl | hx
      · exact Nat.le_refl _
      · exact Nat.le_of_succ_le (ih hx)

lemma enumFrom_fst_nodup {fs : List FileDesc} :
    ∀ {j : Nat}, ((enumFrom j fs).map Prod.fst).Nodup := by
  induction fs with
  | nil => intro j; simp [enumFrom]
  | cons f fs ih =>
      intro j
      simp only [enumFrom, List.map_cons, List.nodup_cons]
      exact ⟨fun hx => by have := enumFrom_fst_le hx; omega, ih⟩

lemma enumFrom_fst_inj {fs : List FileDesc} :
    ∀ {j : Nat} {p q : Nat × FileDesc},
      p ∈ enumFrom j fs → q ∈ enumFrom j fs → p.1 = q.1 → p = q := by
  induction fs with
  | nil => intro j p q hp; simp [enumFrom] at hp
  | cons f fs ih =>
      intro j p q hp hq heq
      simp only [enumFrom, List.mem_cons] at hp hq
      rcases hp with rfl | hp <;> rcases hq with rfl | hq
      · rfl
      · exfalso
        have := enumFrom_fst_le (List.mem_map_of_mem Prod.fst hq)
        omega
      · exfalso
        have := enumFrom_fst_le (List.mem_map_of_mem Prod.fst hp)
        omega
      · exact ih hp hq heq

/-- C4 as stated is false: with the input set containing one file named
"a.proto" and the explicit request list naming it twice, the selected
"generate" list holds the same file twice — duplicate request entries
are not collapsed by identity. -/
theorem file_selector_dup_cex :
    findProtoFilesToGenerate [fileC4] [str ("a.proto"), str ("a.proto")] =
      [(0, fileC4), (0, fileC4)] ∧
    ¬ ((findProtoFilesToGenerate [fileC4] [str ("a.proto"), str ("a.proto")]).map Prod.fst).Nodup := by
  decide

/-- C4 (amended): for every input set and every explicit request list
without repeated entries, the "generate" subset is, in request-list
order, the input files matching each requested name; it is
duplicate-free by identity; and the role map marks exactly its members
as "generate" (empty stored package) and all remaining input files as
dependency-only (stored package kept). -/
theorem file_selector_partition (ctx : GenCtx) (hnd : ctx.fileToGenerate.Nodup) :
    genFiles ctx = ctx.fileToGenerate.flatMap
        (fun nm => (enumFrom 0 ctx.protoFile).filter (fun f => f.2.name == nm)) ∧
    ((genFiles ctx).map Prod.fst).Nodup ∧
    ∀ p ∈ enumFrom 0 ctx.protoFile,
      (fileDescSliceContains (genFiles ctx) p = true → fileToGoPackageName ctx p = []) ∧
      (fileDescSliceContains (genFiles ctx) p = false → fileToGoPackageName ctx p = p.2.package) := by
  refine ⟨findProtoFilesToGenerate_eq ctx.protoFile ctx.fileToGenerate, ?_, ?_⟩
  · rw [genFiles, findProtoFilesToGenerate_eq, List.map_flatMap, List.nodup_flatMap]
    constructor
    · intro nm _
      exact ((List.filter_sublist _).map Prod.fst).nodup enumFrom_fst_nodup
    · refine hnd.imp ?_
      intro n₁ n₂ hne
      simp only [Function.onFun]
      intro a ha hb
      simp only [List.mem_map, List.mem_filter] at ha hb
      obtain ⟨p, ⟨hpmem, hpname⟩, hpa⟩ := ha
      obtain ⟨q, ⟨hqmem, hqname⟩, hqa⟩ := hb
      have hpq : p = q := enumFrom_fst_inj hpmem hqmem (hpa.trans hqa.symm)
      subst hpq
      exact hne ((eq_of_beq hpname).symm.trans (eq_of_beq hqname))
  · intro p hp
    constructor <;> intro hc <;> simp [fileToGoPackageName, hp, hc]

theorem file_selector_partition_witness : ((genFiles ctxC4).map Prod.fst).Nodup :=
  (file_selector_partition ctxC4 (by decide)).2.1

theorem output_file_names_witness :
    List.Forall₂ (fun (p : Nat × FileDesc) (e : Str × List Str) =>
        e.1 = noExtension p.2.name ++ str ("_twirp.rb") ∧
        (str ("require_relative ") ++ [39] ++ (noExtension (onlyBase p.2.name) ++ str ("_pb.rb")) ++ [39])
          ∈ e.2)
      (genFiles exCtx) exOut :=
  output_file_names exCtx exOut (by decide)

lemma snakeGo_true_cons (c : Nat) (l : Str) :
    snakeGo true (c :: l) = toLowerGo c :: snakeGo false l := by
  simp [snakeGo]

lemma snakeGo_false_cons (c : Nat) (l : Str) :
    snakeGo false (c :: l) = (if isUpperGo c then [95] else []) ++ toLowerGo c :: snakeGo false l := by
  simp [snakeGo]

lemma isASCIILower_95 : isASCIILower 95 = false := by decide

lemma isASCIIDigit_95 : isASCIIDigit 95 = false := by decide

lemma okChar_cases {c : Nat} (h : okChar c = true) :
    isASCIILower c = true ∨ isASCIIDigit c = true ∨ c = 95 := by
  have h2 : (isASCIILower c = true ∨ isASCIIDigit c = true) ∨ c = 95 := by
    simpa [okChar, Bool.or_eq_true, beq_iff_eq] using h
  tauto

lemma lower_facts {c : Nat} (h : isASCIILower c = true) :
    isUpperGo (c - 32) = true ∧ toLowerGo (c - 32) = c ∧ isUpperGo c = false ∧ c ≠ 95 ∧
      isASCIIDigit c = false := by
  simp only [isASCIILower, decide_eq_true_eq] at h
  have h1 : isUpperGo (c - 32) = true := by simp [isUpperGo]; omega
  refine ⟨h1, ?_, ?_, ?_, ?_⟩
  · simp only [toLowerGo, h1, if_true]; omega
  · simp [isUpperGo]; omega
  · omega
  · simp [isASCIIDigit]; omega

lemma digit_facts {c : Nat} (h : isASCIIDigit c = true) :
    isUpperGo c = false ∧ toLowerGo c = c ∧ isASCIILower c = false ∧ c ≠ 95 := by
  simp only [isASCIIDigit, decide_eq_true_eq] at h
  have h1 : isUpperGo c = false := by simp [isUpperGo]; omega
  exact ⟨h1, by simp [toLowerGo, h1], by simp [isASCIILower]; omega, by omega⟩

lemma sep_facts : isUpperGo 95 = false ∧ toLowerGo 95 = 95 ∧ isASCIILower 95 = false ∧
    isASCIIDigit 95 = false := by decide

lemma noSepDigit_cons_cons {a b : Nat} {t : Str} (h : noSepDigit (a :: b :: t) = true) :
    (a == 95 && isASCIIDigit b) = false ∧ noSepDigit (b :: t) = true := by
  simp only [noSepDigit, Bool.and_eq_true, Bool.not_eq_true'] at h
  exact h

lemma noSepDigit_tail {a : Nat} {l : Str} (h : noSepDigit (a :: l) = true) :
    noSepDigit l = true := by
  cases l with
  | nil => rfl
  | cons b t => exact (noSepDigit_cons_cons h).2

lemma noSepDigit_cons_of {a : Nat} {l : Str}
    (hpair : ∀ b, l.head? = some b → (a == 95 && isASCIIDigit b) = false)
    (hl : noSepDigit l = true) : noSepDigit (a :: l) = true := by
  cases l with
  | nil => rfl
  | cons b t =>
      simp only [noSepDigit, Bool.and_eq_true, Bool.not_eq_true']
      exact ⟨hpair b rfl, hl⟩

lemma camel_snake_PQ :
    ∀ u : Str, (∀ c ∈ u, okChar c = true) → noSepDigit u = true →
      (snakeGo false (camelAux true u) = (if headLower u then 95 :: u else u)) ∧
      (snakeGo false (camelAux false u) = u) := by
  intro u
  induction u with
  | nil => intro _ _; exact ⟨rfl, rfl⟩
  | cons c rest ih =>
      intro hchars hnsd
      have hok : okChar c = true := hchars c (List.mem_cons_self _ _)
      have hchars' : ∀ x ∈ rest, okChar x = true :=
        fun x hx => hchars x (List.mem_cons_of_mem _ hx)
      obtain ⟨ihP, ihQ⟩ := ih hchars' (noSepDigit_tail hnsd)
      rcases okChar_cases hok with hlow | hdig | h95
      · obtain ⟨hu32, htl32, hnu, hne95, _⟩ := lower_facts hlow
        have hc95 : (c == 95) = false := by simp [hne95]
        constructor
        · have e1 : camelAux true (c :: rest) = (c - 32) :: camelAux false rest := by
            simp [camelAux, hlow, hc95]
          rw [e1, snakeGo_false_cons, if_pos hu32, htl32, ihQ]
          simp [headLower, hlow]
        · have e1 : camelAux false (c :: rest) = c :: camelAux false rest := by
            simp [camelAux, hlow]
          rw [e1, snakeGo_false_cons, if_neg (by simp [hnu]), ihQ]
          simp [toLowerGo, hnu]
      · obtain ⟨hnu, htl, hnl, hne95⟩ := digit_facts hdig
        have hc95 : (c == 95) = false := by simp [hne95]
        constructor
        · have e1 : camelAux true (c :: rest) = c :: camelAux false rest := by
            simp [camelAux, hnl, hc95]
          rw [e1, snakeGo_false_cons, if_neg (by simp [hnu]), htl, ihQ]
          simp [headLower, hnl]
        · have e1 : camelAux false (c :: rest) = c :: camelAux false rest := by
            simp [camelAux, hdig]
          rw [e1, snakeGo_false_cons, if_neg (by simp [hnu]), htl, ihQ]
          simp
      · subst h95
        cases hhd : headLowerDigit rest with
        | true =>
            obtain ⟨b, t, rfl⟩ : ∃ b t, rest = b :: t := by
              cases rest with
              | nil => simp [headLowerDigit] at hhd
              | cons b t => exact ⟨b, t, rfl⟩
            have hbd : isASCIIDigit b = false := by
              have := (noSepDigit_cons_cons hnsd).1
              simpa using this
            have hbl : isASCIILower b = true := by
              simp only [headLowerDigit, Bool.or_eq_true, hbd, Bool.false_eq_true, or_false] at hhd
              exact hhd
            have hP : snakeGo false (camelAux true (b :: t)) = 95 :: b :: t := by
              rw [ihP]
              simp [headLower, hbl]
            constructor
            · have e1 : camelAux true (95 :: b :: t) = camelAux true (b :: t) := by
                simp [camelAux, hhd, isASCIILower_95, isASCIIDigit_95]
              rw [e1, hP]
              simp [headLower, isASCIILower_95]
            · have e1 : camelAux false (95 :: b :: t) = camelAux true (b :: t) := by
                simp [camelAux, hhd, isASCIILower_95, isASCIIDigit_95]
              rw [e1, hP]
        | false =>
            have e1t : camelAux true (95 :: rest) = 95 :: camelAux false rest := by
              simp [camelAux, hhd, isASCIILower_95, isASCIIDigit_95]
            have e1f : camelAux false (95 :: rest) = 95 :: camelAux false rest := by
              simp [camelAux, hhd, isASCIILower_95, isASCIIDigit_95]
            have hsn : snakeGo false (95 :: camelAux false rest) = 95 :: rest := by
              rw [snakeGo_false_cons, if_neg (by simp [sep_facts.1]), sep_facts.2.1, ihQ]
              simp
            constructor
            · rw [e1t, hsn]
              simp [headLower, isASCIILower_95]
            · rw [e1f, hsn]

lemma snake_of_camel_norm (u : Str) (hchars : ∀ c ∈ u, okChar c = true)
    (hnsd : noSepDigit u = true) (hhead : u.head? ≠ some 95) :
    snakeCase (camelCase u) = u := by
  cases u with
  | nil => rfl
  | cons c rest =>
      have hc : c ≠ 95 := fun e => hhead (by simp [e])
      have hok : okChar c = true := hchars c (List.mem_cons_self _ _)
      have hchars' : ∀ x ∈ rest, okChar x = true :=
        fun x hx => hchars x (List.mem_cons_of_mem _ hx)
      obtain ⟨_, ihQ⟩ := camel_snake_PQ rest hchars' (noSepDigit_tail hnsd)
      have hc95 : (c == 95) = false := by simp [hc]
      have hcm : camelCase (c :: rest) = camelAux true (c :: rest) := by
        simp [camelCase, hc95]
      rcases okChar_cases hok with hlow | hdig | h95
      · obtain ⟨hu32, htl32, hnu, _, _⟩ := lower_facts hlow
        have e1 : camelAux true (c :: rest) = (c - 32) :: camelAux false rest := by
          simp [camelAux, hlow, hc95]
        rw [hcm, e1]
        unfold snakeCase
        rw [snakeGo_true_cons, htl32, ihQ]
      · obtain ⟨hnu, htl, hnl, _⟩ := digit_facts hdig
        have e1 : camelAux true (c :: rest) = c :: camelAux false rest := by
          simp [camelAux, hnl, hc95]
        rw [hcm, e1]
        unfold snakeCase
        rw [snakeGo_true_cons, htl, ihQ]
      · exact absurd h95 hc

lemma okChar_toLowerGo {d : Nat} (h : srcChar d = true) : okChar (toLowerGo d) = true := by
  by_cases hu : isUpperGo d = true
  · simp only [toLowerGo, hu, if_true]
    simp only [isUpperGo, decide_eq_true_eq] at hu
    simp [okChar, isASCIILower]
    omega
  · simp only [toLowerGo, hu, if_false]
    simp only [srcChar, Bool.or_eq_true, hu, false_or] at h
    simpa [okChar, Bool.or_eq_true] using h

lemma snakeGo_chars {s : Str} (hchars : ∀ c ∈ s, srcChar c = true) :
    ∀ b, ∀ c ∈ snakeGo b s, okChar c = true := by
  induction s with
  | nil => intro b c hc; cases hc
  | cons d rest ih =>
      intro b c hc
      have hd : srcChar d = true := hchars d (List.mem_cons_self _ _)
      have hchars' : ∀ x ∈ rest, srcChar x = true :=
        fun x hx => hchars x (List.mem_cons_of_mem _ hx)
      simp only [snakeGo, List.mem_append, List.mem_cons] at hc
      rcases hc with hc | hc | hc
      · have : c = 95 := by
          rcases em ((isUpperGo d && !b) = true) with h2 | h2 <;> simp [h2] at hc
          exact hc
        subst this
        decide
      · subst hc
        exact okChar_toLowerGo hd
      · exact ih hchars' false c hc

lemma toLowerGo_ne_95 {c : Nat} (hc : c ≠ 95) : toLowerGo c ≠ 95 := by
  by_cases hu : isUpperGo c = true
  · simp only [toLowerGo, hu, if_true]
    simp only [isUpperGo, decide_eq_true_eq] at hu
    omega
  · simpa [toLowerGo, hu] using hc

lemma snake_head_ne_95 {s : Str} (hchars : ∀ c ∈ s, srcChar c = true)
    (hhead : s.head? ≠ some 95) : (snakeCase s).head? ≠ some 95 := by
  cases s with
  | nil => simp [snakeCase, snakeGo]
  | cons c rest =>
      have hc : c ≠ 95 := fun e => hhead (by simp [e])
      unfold snakeCase
      rw [snakeGo_true_cons]
      simp only [List.head?_cons, ne_eq, Option.some.injEq]
      exact toLowerGo_ne_95 hc

lemma snakeGo_false_head (s : Str) :
    (snakeGo false s).head? = s.head?.map (fun c => if isUpperGo c then 95 else toLowerGo c) := by
  cases s with
  | nil => rfl
  | cons c l =>
      rw [snakeGo_false_cons]
      by_cases hu : isUpperGo c = true <;> simp [hu]

lemma snake_pair_ok {c : Nat} {rest : Str} (hc : srcChar c = true)
    (hrest : ∀ x ∈ rest, srcChar x = true)
    (hnsd : noSepDigit (c :: rest) = true) :
    ∀ b, (snakeGo false rest).head? = some b → (toLowerGo c == 95 && isASCIIDigit b) = false := by
  intro b hb
  rw [snakeGo_false_head] at hb
  cases rest with
  | nil => cases hb
  | cons d t =>
      simp only [List.head?_cons, Option.map_some', Option.some.injEq] at hb
      subst hb
      by_cases hc95 : c = 95
      · subst hc95
        have hdig : isASCIIDigit d = false := by
          have := (noSepDigit_cons_cons hnsd).1
          simpa using this
        by_cases hu : isUpperGo d = true
        · simp [hu, isASCIIDigit_95]
        · have hd : srcChar d = true := hrest d (List.mem_cons_self _ _)
          simp only [hu, if_false]
          simp [toLowerGo, hu, hdig]
      · simp [toLowerGo_ne_95 hc95]

lemma snakeGo_false_nsd {s : Str} (hchars : ∀ c ∈ s, srcChar c = true)
    (hnsd : noSepDigit s = true) : noSepDigit (snakeGo false s) = true := by
  induction s with
  | nil => rfl
  | cons c rest ih =>
      have hc : srcChar c = true := hchars c (List.mem_cons_self _ _)
      have hchars' : ∀ x ∈ rest, srcChar x = true :=
        fun x hx => hchars x (List.mem_cons_of_mem _ hx)
      have ihr := ih hchars' (noSepDigit_tail hnsd)
      rw [snakeGo_false_cons]
      have hcons : noSepDigit (toLowerGo c :: snakeGo false rest) = true :=
        noSepDigit_cons_of (snake_pair_ok hc hchars' hnsd) ihr
      by_cases hu : isUpperGo c = true
      · rw [if_pos hu, List.singleton_append]
        refine noSepDigit_cons_of ?_ hcons
        intro b hb
        simp only [List.head?_cons, Option.some.injEq] at hb
        subst hb
        have : isASCIIDigit (toLowerGo c) = false := by
          simp only [toLowerGo, hu, if_true]
          simp only [isUpperGo, decide_eq_true_eq] at hu
          simp only [isASCIIDigit, decide_eq_false_iff_not]
          omega
        simp [this]
      · rw [if_neg hu]
        simpa using hcons

lemma snake_nsd {s : Str} (hchars : ∀ c ∈ s, srcChar c = true)
    (hnsd : noSepDigit s = true) : noSepDigit (snakeCase s) = true := by
  cases s with
  | nil => rfl
  | cons c rest =>
      have hchars' : ∀ x ∈ rest, srcChar x = true :=
        fun x hx => hchars x (List.mem_cons_of_mem _ hx)
      unfold snakeCase
      rw [snakeGo_true_cons]
      exact noSepDigit_cons_of
        (snake_pair_ok (hchars c (List.mem_cons_self _ _)) hchars' hnsd)
        (snakeGo_false_nsd hchars' (noSepDigit_tail hnsd))

/-- C2 as stated is false: "a_1" contains only letters, digits and
separators, yet the snake/camel/snake round trip drops the separator
before the digit (`snakeCase "a_1" = "a_1"` but the round trip yields
"a1"). -/
theorem snake_camel_snake_cex :
    (∀ c ∈ str ("a_1"), srcChar c = true) ∧
    snakeCase (camelCase (snakeCase (str ("a_1")))) ≠ snakeCase (str ("a_1")) := by decide

/-- C2 (amended): for every string of letters, digits and separators
that does not begin with a separator and has no separator immediately
followed by a digit, `to_snake_case (to_camel_case (to_snake_case s))`
equals `to_snake_case s`. -/
theorem snake_camel_snake_roundtrip (s : Str)
    (hchars : ∀ c ∈ s, srcChar c = true)
    (hhead : s.head? ≠ some 95)
    (hnsd : noSepDigit s = true) :
    snakeCase (camelCase (snakeCase s)) = snakeCase s := by
  apply snake_of_camel_norm
  · exact fun c hc => snakeGo_chars hchars true c hc
  · exact snake_nsd hchars hnsd
  · exact snake_head_ne_95 hchars hhead

theorem snake_camel_snake_roundtrip_witness :
    (∀ c ∈ str ("my_fieldName2"), srcChar c = true) ∧
    (str ("my_fieldName2")).head? ≠ some 95 ∧
    noSepDigit (str ("my_fieldName2")) = true ∧
    snakeCase (camelCase (snakeCase (str ("my_fieldName2")))) = snakeCase (str ("my_fieldName2")) :=
  ⟨by decide, by decide, by decide,
    snake_camel_snake_roundtrip (str ("my_fieldName2")) (by decide) (by decide) (by decide)⟩
